import Mathlib

/-!
Verification of the n-gram search-query analysis pipeline
(`src/core/cleaner.py`, `src/core/analyzer.py`, `src/core/money_wasters.py`)
against its natural-language specification.

The Python code is shallowly embedded: query strings are `String`, numeric
metric values (clicks, cost, conversions, impressions — Python ints/floats)
are exact rationals `ℚ`, pandas `DataFrame`s are a record of column-presence
flags plus a list of rows, and the `ValueError` raised on missing columns
becomes `Except`.  Character-level operations (`str.lower`, the regex class
`\w`) are modelled on their ASCII fragment, which is the fragment all
reasoning below uses uniformly.
-/

set_option maxRecDepth 16000

namespace Ngram

attribute [local semireducible] Rat.add Rat.mul Rat.sub Rat.inv

/-! ## Tokenizer (`src/core/cleaner.py`) -/

/-- The regex character class `\w` of `re.sub(r'[^\w\s]', ' ', ...)` in
`clean_query` (ASCII fragment): alphanumeric characters and underscore. -/
def isWordChar (c : Char) : Bool := c.isAlphanum || c == '_'

/-- One character of the `re.sub(r'[^\w\s]', ' ', ...)` pass of `clean_query`:
a character that is neither a word character nor whitespace is replaced by a
single space; all other characters are kept. -/
def cleanChar (c : Char) : Char := if isWordChar c || c.isWhitespace then c else ' '

/-- Python `str.split()` with no separator argument, as used in `clean_query`:
split on runs of whitespace, discarding empty tokens.  The accumulator holds
the current token reversed. -/
def splitWsAux : List Char → List Char → List (List Char)
  | acc, [] => if acc.isEmpty then [] else [acc.reverse]
  | acc, c :: cs =>
    if c.isWhitespace then
      if acc.isEmpty then splitWsAux [] cs else acc.reverse :: splitWsAux [] cs
    else splitWsAux (c :: acc) cs

def splitWs (cs : List Char) : List (List Char) := splitWsAux [] cs

/-- The `words` local of `clean_query`: lowercase the query, replace every
character matching `[^\w\s]` by a space, split on whitespace. -/
def rawTokens (query : String) : List String :=
  (splitWs ((query.data.map Char.toLower).map cleanChar)).map String.mk

/-- `clean_query(query, stop_words)` from `src/core/cleaner.py`:
lowercase, replace every character matching `[^\w\s]` by a space, split on
whitespace, and (when a non-empty stop-word set is given — Python
`if stop_words:`) drop stop words.  A stop-word set is modelled as a list. -/
def clean_query (query : String) (stop_words : List String) : List String :=
  if stop_words.isEmpty then rawTokens query
  else (rawTokens query).filter (fun w => !stop_words.contains w)

/-- Python `' '.join(ws)`. -/
def joinSpaces : List String → String
  | [] => ""
  | [w] => w
  | w :: ws => w ++ " " ++ joinSpaces ws

/-- `extract_ngrams(query, n, stop_words)` from `src/core/cleaner.py`:
tokenize, return `[]` if fewer than `n` tokens remain, otherwise all
`len(words) - n + 1` sliding windows of width `n` joined by single spaces
(`words[i:i+n]` is `(words.drop i).take n`). -/
def extract_ngrams (query : String) (n : ℕ) (stop_words : List String) : List String :=
  let words := clean_query query stop_words
  if words.length < n then []
  else (List.range (words.length - n + 1)).map (fun i => joinSpaces ((words.drop i).take n))

/-! ## Tokenizer idempotence (claim C9) -/

/-- The invariant satisfied by every character of the cleaned string built in
`clean_query`: it survives the `[^\w\s]` replacement unchanged and is a fixed
point of lowercasing. -/
def cleanedGood (c : Char) : Prop := (isWordChar c || c.isWhitespace) = true ∧ c.toLower = c

/-- Character-level counterpart of `' '.join`. -/
def joinChars : List (List Char) → List Char
  | [] => []
  | [w] => w
  | w :: ws => w ++ ' ' :: joinChars ws

/-! ## Aggregator (`src/core/analyzer.py`)

A pandas `DataFrame` is modelled as a list of rows plus one presence flag per
column the analyzer touches; numeric cell values are exact rationals.  The
`ValueError` raised by `analyze_ngrams` on missing columns becomes
`Except.error` carrying the list of missing column names. -/

structure Row where
  query : String
  clicks : ℚ
  cost : ℚ
  conversions : ℚ
  impressions : ℚ
deriving DecidableEq

structure DataFrame where
  hasQuery : Bool
  hasClicks : Bool
  hasCost : Bool
  hasConversions : Bool
  hasImpressions : Bool
  rows : List Row
deriving DecidableEq

/-- Column membership (`col in df.columns`) for the columns the analyzer uses. -/
def hasColumn (df : DataFrame) : String → Bool
  | "query" => df.hasQuery
  | "clicks" => df.hasClicks
  | "cost" => df.hasCost
  | "conversions" => df.hasConversions
  | "impressions" => df.hasImpressions
  | _ => false

def requiredCols : List String := ["query", "clicks", "cost", "conversions"]

/-- `row.get('impressions', row['clicks'])`: a row's impressions, with the
row's clicks substituted when the impressions column is absent. -/
def rowImpressions (df : DataFrame) (r : Row) : ℚ :=
  if df.hasImpressions then r.impressions else r.clicks

/-- One entry of the `ngram_data` defaultdict of `analyze_ngrams`. -/
structure Acc where
  clicks : ℚ
  cost : ℚ
  conversions : ℚ
  impressions : ℚ
  query_count : ℕ
  queries : List String
deriving DecidableEq

/-- The defaultdict's default value: all sums zero, no queries. -/
def Acc.init : Acc := ⟨0, 0, 0, 0, 0, []⟩

/-- The body of the inner loop of `analyze_ngrams`: add one occurrence of an
n-gram found in row `r` to that n-gram's accumulator. -/
def bump (df : DataFrame) (r : Row) (a : Acc) : Acc :=
  { clicks := a.clicks + r.clicks
    cost := a.cost + r.cost
    conversions := a.conversions + r.conversions
    impressions := a.impressions + rowImpressions df r
    query_count := a.query_count + 1
    queries := a.queries ++ [r.query] }

/-- Update the entry of key `g` in an insertion-ordered association list,
inserting `f Acc.init` at the end when the key is new (Python dicts preserve
insertion order). -/
def updateAcc : List (String × Acc) → String → (Acc → Acc) → List (String × Acc)
  | [], g, f => [(g, f Acc.init)]
  | (k, a) :: rest, g, f =>
    if k = g then (k, f a) :: rest else (k, a) :: updateAcc rest g f

/-- The accumulation loop of `analyze_ngrams`: for every row, for every
extracted n-gram, bump that n-gram's accumulator. -/
def buildMap (df : DataFrame) (n : ℕ) (sw : List String) : List (String × Acc) :=
  df.rows.foldl
    (fun m r => (extract_ngrams r.query n sw).foldl (fun m2 g => updateAcc m2 g (bump df r)) m)
    []

/-- One output row of the analyzer. -/
structure AggRow where
  ngram : String
  query_count : ℕ
  total_clicks : ℚ
  total_cost : ℚ
  total_conversions : ℚ
  total_impressions : ℚ
  ctr : ℚ
  cvr : ℚ
  cpa : ℚ
  queries : List String
deriving DecidableEq

/-- Turn an accumulator into an output row, deriving `ctr`, `cvr`, `cpa` with
the division-by-zero guards of `analyze_ngrams` (also the formulas the
`np.where` calls of `analyze_ngrams_vectorized` apply). -/
def mkAggRow (g : String) (a : Acc) : AggRow :=
  { ngram := g
    query_count := a.query_count
    total_clicks := a.clicks
    total_cost := a.cost
    total_conversions := a.conversions
    total_impressions := a.impressions
    ctr := if 0 < a.impressions then a.clicks / a.impressions * 100 else 0
    cvr := if 0 < a.clicks then a.conversions / a.clicks * 100 else 0
    cpa := if 0 < a.conversions then a.cost / a.conversions else 0
    queries := a.queries }

/-- `analyze_ngrams(df, n, min_occurrences, stop_words)` from
`src/core/analyzer.py`: validate the required columns (raising `ValueError`
with the missing names), accumulate, drop n-grams below `min_occurrences`
(`continue` when `query_count < min_occurrences`), derive metrics. -/
def analyze_ngrams (df : DataFrame) (n : ℕ) (minOcc : ℕ) (sw : List String) :
    Except (List String) (List AggRow) :=
  let missing := requiredCols.filter (fun c => !hasColumn df c)
  if missing.isEmpty then
    Except.ok
      (((buildMap df n sw).filter (fun p => decide (minOcc ≤ p.2.query_count))).map
        (fun p => mkAggRow p.1 p.2))
  else Except.error missing

/-! ### Characterizing the accumulator -/

/-- Lookup in the accumulator association list, returning the defaultdict's
default for absent keys. -/
def lookupD : List (String × Acc) → String → Acc
  | [], _ => Acc.init
  | (k, a) :: rest, g => if k = g then a else lookupD rest g

def keysOf (m : List (String × Acc)) : List String := m.map Prod.fst

/-- How many times n-gram `g` is extracted from row `r` (with multiplicity). -/
def occCount (n : ℕ) (sw : List String) (g : String) (r : Row) : ℕ :=
  (extract_ngrams r.query n sw).count g

/-- `k` applications of `bump df r` at once. -/
def addK (df : DataFrame) (r : Row) (k : ℕ) (a : Acc) : Acc :=
  { clicks := a.clicks + k * r.clicks
    cost := a.cost + k * r.cost
    conversions := a.conversions + k * r.conversions
    impressions := a.impressions + k * rowImpressions df r
    query_count := a.query_count + k
    queries := a.queries ++ List.replicate k r.query }

/-- The value accumulated for n-gram `g` over the whole dataset: for each
metric, the occurrence-weighted sum over all rows; the occurrence total; and
one copy of each row's query text per occurrence, in row order. -/
def idealAcc (df : DataFrame) (n : ℕ) (sw : List String) (g : String) : Acc :=
  { clicks := (df.rows.map (fun r => (occCount n sw g r : ℚ) * r.clicks)).sum
    cost := (df.rows.map (fun r => (occCount n sw g r : ℚ) * r.cost)).sum
    conversions := (df.rows.map (fun r => (occCount n sw g r : ℚ) * r.conversions)).sum
    impressions := (df.rows.map (fun r => (occCount n sw g r : ℚ) * rowImpressions df r)).sum
    query_count := (df.rows.map (occCount n sw g)).sum
    queries := df.rows.flatMap (fun r => List.replicate (occCount n sw g r) r.query) }

/-- The rows produced by a run of the analyzer (`[]` when it raised). -/
def resultRows : Except (List String) (List AggRow) → List AggRow
  | Except.ok l => l
  | Except.error _ => []

/-- The post-validation body of `analyze_ngrams`. -/
def aggOut (df : DataFrame) (n : ℕ) (minOcc : ℕ) (sw : List String) : List AggRow :=
  ((buildMap df n sw).filter (fun p => decide (minOcc ≤ p.2.query_count))).map
    (fun p => mkAggRow p.1 p.2)

/-- The three-row dataset of the specification's concrete scenario (§8). -/
def cDf : DataFrame :=
  ⟨true, true, true, true, true,
    [⟨"cheap remortgage", 100, 150, 10, 1000⟩,
     ⟨"best remortgage deals", 200, 300, 20, 2000⟩,
     ⟨"remortgage rates", 150, 225, 15, 1500⟩]⟩

/-- The accumulator the analyzer builds for the n-gram "remortgage" on `cDf`. -/
def cAccR : Acc :=
  ⟨450, 675, 45, 4500, 3, ["cheap remortgage", "best remortgage deals", "remortgage rates"]⟩

/-! ## Vectorized aggregator (`analyze_ngrams_vectorized`) -/

/-- The exploded frame of `analyze_ngrams_vectorized`: one `(ngram, source
row)` pair per extracted n-gram occurrence, in row order.  (`explode` plus the
`notna` filter: rows whose extraction is empty contribute nothing.) -/
def exploded (df : DataFrame) (n : ℕ) (sw : List String) : List (String × Row) :=
  df.rows.flatMap (fun r => (extract_ngrams r.query n sw).map (fun g => (g, r)))

/-- The group of source rows for key `g` under `groupby('ngrams')`, in
original order. -/
def groupRows (entries : List (String × Row)) (g : String) : List Row :=
  (entries.filter (fun p => decide (p.1 = g))).map Prod.snd

/-- The aggregated record `groupby('ngrams').agg(...)` produces for key `g`:
sums of the metric columns, the count of group members, and the list of their
query texts. -/
def vecAcc (df : DataFrame) (entries : List (String × Row)) (g : String) : Acc :=
  { clicks := ((groupRows entries g).map Row.clicks).sum
    cost := ((groupRows entries g).map Row.cost).sum
    conversions := ((groupRows entries g).map Row.conversions).sum
    impressions := ((groupRows entries g).map (rowImpressions df)).sum
    query_count := (groupRows entries g).length
    queries := (groupRows entries g).map Row.query }

/-- `analyze_ngrams_vectorized(df, n, min_occurrences, stop_words)` from
`src/core/analyzer.py`: explode, group by n-gram (pandas `groupby` sorts the
distinct keys ascending), filter by `query_count >= min_occurrences`, derive
the metrics with `np.where`.  The impressions column is created from clicks
when absent, as in the source (`rowImpressions`). -/
def analyze_ngrams_vectorized (df : DataFrame) (n minOcc : ℕ) (sw : List String) :
    List AggRow :=
  let entries := exploded df n sw
  let keys := List.insertionSort (fun a b => a ≤ b) (entries.map Prod.fst).dedup
  ((keys.map (fun g => (g, vecAcc df entries g))).filter
      (fun p => decide (minOcc ≤ p.2.query_count))).map (fun p => mkAggRow p.1 p.2)

/-! ## Waste detector (`src/core/money_wasters.py`) -/

/-- `max()` of a pandas Series (0 only for the empty series, which the code
never reaches). -/
def listMax : List ℚ → ℚ
  | [] => 0
  | x :: xs => xs.foldl max x

/-- numpy/pandas linear-interpolation percentile evaluated at rank `h` over a
sorted list `s` of length `N`: interpolate between the value at `floor h` and
the next value (clamped to the last index). -/
def interp (s : List ℚ) (N : ℕ) (h : ℚ) : ℚ :=
  s.getD (Int.floor h).toNat 0
    + (h - (Int.floor h : ℚ))
      * (s.getD (min ((Int.floor h).toNat + 1) (N - 1)) 0 - s.getD (Int.floor h).toNat 0)

/-- pandas `Series.quantile(q)` with the default linear interpolation: sort
the values and interpolate at rank `q * (N - 1)`.  (The empty series, which
yields NaN in pandas, is unreachable behind `identify_money_wasters`'s
empty-input guard; it is mapped to 0 here.) -/
def quantile (xs : List ℚ) (q : ℚ) : ℚ :=
  if xs.length = 0 then 0
  else interp (List.insertionSort (fun a b : ℚ => a ≤ b) xs) xs.length
    (q * ((xs.length : ℚ) - 1))

/-- `cost_threshold` of `identify_money_wasters`. -/
def costThreshold (df : List AggRow) (costP : ℚ) : ℚ :=
  quantile (df.map AggRow.total_cost) (costP / 100)

/-- `cvr_threshold` of `identify_money_wasters`. -/
def cvrThreshold (df : List AggRow) (cvrP : ℚ) : ℚ :=
  quantile (df.map AggRow.cvr) (cvrP / 100)

/-- The `money_wasters` filter of `identify_money_wasters`:
`total_cost >= cost_threshold AND cvr <= cvr_threshold`. -/
def retainedRows (df : List AggRow) (costP cvrP : ℚ) : List AggRow :=
  df.filter (fun r =>
    decide (costThreshold df costP ≤ r.total_cost) && decide (r.cvr ≤ cvrThreshold df cvrP))

/-- `max_cost` of `identify_money_wasters`: the maximum `total_cost` over the
already-filtered (not the original) set. -/
def wasteMaxCost (df : List AggRow) (costP cvrP : ℚ) : ℚ :=
  listMax ((retainedRows df costP cvrP).map AggRow.total_cost)

/-- `identify_money_wasters(df, cost_threshold_percentile,
cvr_threshold_percentile)` from `src/core/money_wasters.py`: empty input →
empty output; percentile thresholds; filter; if nothing is retained return it
empty; otherwise attach `waste_score = (total_cost / max_cost) * (1 - cvr/100)`
and sort by it descending (`sort_values` is a stable sort). -/
def identify_money_wasters (df : List AggRow) (costP cvrP : ℚ) : List (AggRow × ℚ) :=
  if df.isEmpty then []
  else if (retainedRows df costP cvrP).isEmpty then []
  else
    List.insertionSort (fun a b : AggRow × ℚ => b.2 ≤ a.2)
      ((retainedRows df costP cvrP).map (fun r =>
        (r, r.total_cost / wasteMaxCost df costP cvrP * (1 - r.cvr / 100))))

/-- A retained row used to instantiate the waste-detector theorems. -/
def wRow : AggRow := ⟨"w", 2, 10, 10, 1, 100, 10, 50, 10, ["w", "w"]⟩

/-- An aggregate with `cvr > 100` (conversions exceeding clicks — allowed by
the data model, which does not enforce `conversions ≤ clicks`). -/
def rBad : AggRow := ⟨"bad", 1, 1, 1, 2, 1, 100, 200, 1/2, ["bad"]⟩

/-- A well-behaved aggregate used to instantiate the amended waste-score
theorem. -/
def rGood : AggRow := ⟨"good", 2, 20, 4, 1, 200, 10, 50, 4, ["good", "good"]⟩

/-! ## Theorems -/

example : clean_query "Best Remortgage Deals!" [] = ["best", "remortgage", "deals"] := by decide

example : extract_ngrams "cheap remortgage calculator" 2 [] =
    ["cheap remortgage", "remortgage calculator"] := by decide

example : extract_ngrams "test" 2 [] = [] := by decide

example : extract_ngrams "the best remortgage deals" 2 ["the", "a"] =
    ["best remortgage", "remortgage deals"] := by decide

/-- C5: for every query `q`, window size `n` and stop-word set, `extract_ngrams`
returns exactly `max 0 (token_count - n + 1)` n-grams; with fewer than `n`
tokens the result is the empty list (not an error); and the `i`-th result is
the `i`-th window of `n` consecutive tokens joined by single spaces, in token
order. -/
theorem extract_ngrams_window_spec (q : String) (n : ℕ) (sw : List String) :
    ((extract_ngrams q n sw).length : ℤ) =
      max 0 (((clean_query q sw).length : ℤ) - (n : ℤ) + 1) ∧
    ((clean_query q sw).length < n → extract_ngrams q n sw = []) ∧
    (∀ i (h : i < (extract_ngrams q n sw).length),
      (extract_ngrams q n sw).get ⟨i, h⟩ =
        joinSpaces (((clean_query q sw).drop i).take n)) := by
  by_cases hlt : (clean_query q sw).length < n
  · have he : extract_ngrams q n sw = [] := by
      unfold extract_ngrams
      rw [if_pos hlt]
    rw [he]
    refine ⟨?_, fun _ => rfl, fun i h => absurd h (by simp)⟩
    simp only [List.length_nil, Nat.cast_zero]
    omega
  · have he : extract_ngrams q n sw =
        (List.range ((clean_query q sw).length - n + 1)).map
          (fun i => joinSpaces (((clean_query q sw).drop i).take n)) := by
      unfold extract_ngrams
      rw [if_neg hlt]
    push_neg at hlt
    rw [he]
    refine ⟨?_, fun h => absurd h (by omega), fun i h => ?_⟩
    · simp only [List.length_map, List.length_range]
      omega
    · simp only [List.get_eq_getElem, List.getElem_map, List.getElem_range]

theorem extract_ngrams_window_spec_witness :
    ((extract_ngrams "cheap remortgage calculator" 2 []).length : ℤ) =
      max 0 (((clean_query "cheap remortgage calculator" []).length : ℤ) - (2 : ℤ) + 1) ∧
    (extract_ngrams "cheap remortgage calculator" 2 []).get ⟨1, by decide⟩ =
      joinSpaces (((clean_query "cheap remortgage calculator" []).drop 1).take 2) := by
  obtain ⟨h1, _, h3⟩ := extract_ngrams_window_spec "cheap remortgage calculator" 2 []
  exact ⟨h1, h3 1 (by decide)⟩

/-- C8: the specification requires n-gram sizes `n < 1` to be rejected with an
input error, but `extract_ngrams` has no such check: evaluated at the failing
input `("test", n = 0)` the code silently returns a list of two degenerate
empty n-grams (`words[i:i+0]` is empty, so each window joins to `""`) instead
of raising. -/
theorem extract_ngrams_zero_n_returns_result : extract_ngrams "test" 0 [] = ["", ""] := by
  decide

theorem toLower_eq_self (d : Char) (h : ¬(d.toNat ≥ 65 ∧ d.toNat ≤ 90)) : d.toLower = d := by
  unfold Char.toLower
  rw [if_neg h]

theorem toLower_idem (c : Char) : (c.toLower).toLower = c.toLower := by
  have hof : ∀ n : ℕ, n.isValidChar → (Char.ofNat n).toNat = n := fun n hv => by
    simp only [Char.ofNat, dif_pos hv]
    rfl
  by_cases h : c.toNat ≥ 65 ∧ c.toNat ≤ 90
  · have h1 : c.toLower = Char.ofNat (c.toNat + 32) := by
      unfold Char.toLower
      rw [if_pos h]
    have hv : (c.toNat + 32).isValidChar := Or.inl (by omega)
    have h2 : (c.toLower).toNat = c.toNat + 32 := by
      rw [h1]
      exact hof _ hv
    exact toLower_eq_self _ (by omega)
  · rw [toLower_eq_self c h]
    exact toLower_eq_self c h

theorem cleanedGood_space : cleanedGood ' ' := by
  constructor <;> decide

theorem cleanChar_toLower_good (c : Char) : cleanedGood (cleanChar c.toLower) := by
  unfold cleanChar
  by_cases hc : (isWordChar c.toLower || (c.toLower).isWhitespace) = true
  · rw [if_pos hc]
    exact ⟨hc, toLower_idem c⟩
  · rw [if_neg hc]
    exact cleanedGood_space

theorem mem_cleaned_good (q : String) :
    ∀ c ∈ (q.data.map Char.toLower).map cleanChar, cleanedGood c := by
  intro c hc
  simp only [List.map_map, List.mem_map, Function.comp] at hc
  obtain ⟨c0, _, rfl⟩ := hc
  exact cleanChar_toLower_good c0

theorem splitWsAux_tokens {P : Char → Prop} :
    ∀ (cs acc : List Char), (∀ c ∈ acc, P c ∧ c.isWhitespace = false) →
      (∀ c ∈ cs, c.isWhitespace = false → P c) →
      ∀ w ∈ splitWsAux acc cs, w ≠ [] ∧ ∀ c ∈ w, P c ∧ c.isWhitespace = false := by
  intro cs
  induction cs with
  | nil =>
    intro acc hacc _ w hw
    simp only [splitWsAux] at hw
    by_cases he : acc.isEmpty
    · simp [he] at hw
    · simp only [he, Bool.false_eq_true, if_false, List.mem_singleton] at hw
      subst hw
      refine ⟨by simpa using (List.isEmpty_eq_false.mp (by simpa using he)), ?_⟩
      intro c hc
      exact hacc c (List.mem_reverse.mp hc)
  | cons c cs ih =>
    intro acc hacc hcs w hw
    simp only [splitWsAux] at hw
    by_cases hws : c.isWhitespace
    · rw [if_pos hws] at hw
      by_cases he : acc.isEmpty
      · rw [if_pos he] at hw
        exact ih [] (by simp) (fun d hd => hcs d (List.mem_cons_of_mem _ hd)) w hw
      · rw [if_neg he] at hw
        rcases List.mem_cons.mp hw with rfl | hw2
        · refine ⟨by simpa using (List.isEmpty_eq_false.mp (by simpa using he)), ?_⟩
          intro d hd
          exact hacc d (List.mem_reverse.mp hd)
        · exact ih [] (by simp) (fun d hd => hcs d (List.mem_cons_of_mem _ hd)) w hw2
    · rw [if_neg hws] at hw
      refine ih (c :: acc) ?_ (fun d hd => hcs d (List.mem_cons_of_mem _ hd)) w hw
      intro d hd
      rcases List.mem_cons.mp hd with rfl | hd2
      · exact ⟨hcs d (List.mem_cons_self _ _) (by simpa using hws), by simpa using hws⟩
      · exact hacc d hd2

theorem splitWsAux_append (w : List Char) :
    ∀ (acc cs : List Char), (∀ c ∈ w, c.isWhitespace = false) →
      splitWsAux acc (w ++ cs) = splitWsAux (w.reverse ++ acc) cs := by
  induction w with
  | nil => intro acc cs _; simp
  | cons c w ih =>
    intro acc cs hw
    have hc : c.isWhitespace = false := hw c (List.mem_cons_self _ _)
    simp only [List.cons_append, splitWsAux, hc, Bool.false_eq_true, if_false, List.append_eq]
    rw [ih (c :: acc) cs (fun d hd => hw d (List.mem_cons_of_mem _ hd))]
    simp

theorem splitWs_joinChars :
    ∀ ws : List (List Char),
      (∀ w ∈ ws, w ≠ [] ∧ ∀ c ∈ w, c.isWhitespace = false) →
      splitWs (joinChars ws) = ws := by
  intro ws
  induction ws with
  | nil => intro _; rfl
  | cons w ws ih =>
    intro hgood
    obtain ⟨hne, hnws⟩ := hgood w (List.mem_cons_self _ _)
    have hrevne : w.reverse.isEmpty = false := by
      simp [List.isEmpty_eq_false, hne]
    cases ws with
    | nil =>
      show splitWsAux [] (joinChars [w]) = [w]
      have : joinChars [w] = w ++ [] := by simp [joinChars]
      rw [this, splitWsAux_append w [] [] hnws]
      simp only [List.append_nil, splitWsAux, hrevne, Bool.false_eq_true, if_false,
        List.reverse_reverse]
    | cons w2 ws2 =>
      show splitWsAux [] (joinChars (w :: w2 :: ws2)) = w :: w2 :: ws2
      have hj : joinChars (w :: w2 :: ws2) = w ++ ' ' :: joinChars (w2 :: ws2) := rfl
      rw [hj, splitWsAux_append w [] (' ' :: joinChars (w2 :: ws2)) hnws]
      simp only [List.append_nil, splitWsAux, if_pos (by decide : (' ').isWhitespace = true),
        hrevne, Bool.false_eq_true, if_false, List.reverse_reverse]
      exact congrArg (w :: ·) (ih (fun v hv => hgood v (List.mem_cons_of_mem _ hv)))

theorem cleanedGood_fix :
    ∀ cs : List Char, (∀ c ∈ cs, cleanedGood c) → (cs.map Char.toLower).map cleanChar = cs := by
  intro cs
  induction cs with
  | nil => intro _; rfl
  | cons c cs ih =>
    intro hgood
    obtain ⟨hkeep, hlow⟩ := hgood c (List.mem_cons_self _ _)
    simp only [List.map_cons, hlow, cleanChar, if_pos hkeep]
    exact congrArg (c :: ·) (ih (fun d hd => hgood d (List.mem_cons_of_mem _ hd)))

theorem joinChars_chars :
    ∀ (ws : List (List Char)) (c : Char), c ∈ joinChars ws → (∃ w ∈ ws, c ∈ w) ∨ c = ' ' := by
  intro ws
  induction ws with
  | nil => intro c hc; simp [joinChars] at hc
  | cons w ws ih =>
    intro c hc
    cases ws with
    | nil =>
      exact Or.inl ⟨w, List.mem_cons_self _ _, hc⟩
    | cons w2 ws2 =>
      have hj : joinChars (w :: w2 :: ws2) = w ++ ' ' :: joinChars (w2 :: ws2) := rfl
      rw [hj] at hc
      rcases List.mem_append.mp hc with hw | hrest
      · exact Or.inl ⟨w, List.mem_cons_self _ _, hw⟩
      · rcases List.mem_cons.mp hrest with rfl | hc2
        · exact Or.inr rfl
        · rcases ih c hc2 with ⟨v, hv, hcv⟩ | hsp
          · exact Or.inl ⟨v, List.mem_cons_of_mem _ hv, hcv⟩
          · exact Or.inr hsp

theorem mk_data (s : String) : String.mk s.data = s := by
  cases s
  rfl

theorem map_mk_data (T : List String) : (T.map String.data).map String.mk = T := by
  rw [List.map_map]
  have h : (String.mk ∘ String.data) = id := funext fun t => mk_data t
  rw [h, List.map_id]

theorem data_joinSpaces :
    ∀ ws : List String, (joinSpaces ws).data = joinChars (ws.map String.data) := by
  intro ws
  induction ws with
  | nil => rfl
  | cons w ws ih =>
    cases ws with
    | nil => rfl
    | cons w2 ws2 =>
      show (w ++ " " ++ joinSpaces (w2 :: ws2)).data
          = w.data ++ ' ' :: joinChars ((w2 :: ws2).map String.data)
      rw [show ∀ s t : String, (s ++ t).data = s.data ++ t.data from fun s t => by
        cases s; cases t; rfl]
      rw [show ∀ s t : String, (s ++ t).data = s.data ++ t.data from fun s t => by
        cases s; cases t; rfl]
      rw [ih]
      simp

theorem clean_query_subset_raw (q : String) (sw : List String) :
    ∀ t ∈ clean_query q sw, t ∈ rawTokens q := by
  intro t ht
  unfold clean_query at ht
  by_cases hsw : sw.isEmpty
  · rwa [if_pos hsw] at ht
  · rw [if_neg hsw] at ht
    exact List.mem_of_mem_filter ht

theorem rawTokens_good (q : String) :
    ∀ t ∈ rawTokens q, t.data ≠ [] ∧ ∀ c ∈ t.data, cleanedGood c ∧ c.isWhitespace = false := by
  intro t ht
  obtain ⟨w, hw, rfl⟩ := List.mem_map.mp ht
  exact splitWsAux_tokens (P := cleanedGood) _ [] (by simp)
    (fun c hc _ => mem_cleaned_good q c hc) w hw

theorem rawTokens_joinSpaces (T : List String)
    (hT : ∀ t ∈ T, t.data ≠ [] ∧ ∀ c ∈ t.data, cleanedGood c ∧ c.isWhitespace = false) :
    rawTokens (joinSpaces T) = T := by
  unfold rawTokens
  rw [data_joinSpaces]
  have hfix : ((joinChars (T.map String.data)).map Char.toLower).map cleanChar
      = joinChars (T.map String.data) := by
    apply cleanedGood_fix
    intro c hc
    rcases joinChars_chars _ c hc with ⟨w, hw, hcw⟩ | rfl
    · obtain ⟨t, ht, rfl⟩ := List.mem_map.mp hw
      exact ((hT t ht).2 c hcw).1
    · exact cleanedGood_space
  rw [hfix]
  rw [splitWs_joinChars _ ?_]
  · exact map_mk_data T
  · intro w hw
    obtain ⟨t, ht, rfl⟩ := List.mem_map.mp hw
    exact ⟨(hT t ht).1, fun c hc => ((hT t ht).2 c hc).2⟩

/-- C9: tokenization is idempotent through space-joining — re-tokenizing
`" ".join(clean_query(q, stop_words))` with the same stop-word set yields
exactly `clean_query(q, stop_words)` again. -/
theorem clean_query_space_join_idem (q : String) (sw : List String) :
    clean_query (joinSpaces (clean_query q sw)) sw = clean_query q sw := by
  have hraw : rawTokens (joinSpaces (clean_query q sw)) = clean_query q sw :=
    rawTokens_joinSpaces _ (fun t ht => rawTokens_good q t (clean_query_subset_raw q sw t ht))
  by_cases hsw : sw.isEmpty
  · have hL : clean_query (joinSpaces (clean_query q sw)) sw
        = rawTokens (joinSpaces (clean_query q sw)) := by
      unfold clean_query
      rw [if_pos hsw]
    rw [hL]
    exact hraw
  · have hL : clean_query (joinSpaces (clean_query q sw)) sw
        = (rawTokens (joinSpaces (clean_query q sw))).filter (fun w => !sw.contains w) := by
      unfold clean_query
      rw [if_neg hsw]
    have hR : clean_query q sw = (rawTokens q).filter (fun w => !sw.contains w) := by
      unfold clean_query
      rw [if_neg hsw]
    rw [hL, hraw, hR, List.filter_filter]
    simp

theorem lookupD_update_self (m : List (String × Acc)) (g : String) (f : Acc → Acc) :
    lookupD (updateAcc m g f) g = f (lookupD m g) := by
  induction m with
  | nil => simp [updateAcc, lookupD]
  | cons p rest ih =>
    obtain ⟨k, a⟩ := p
    by_cases hk : k = g
    · simp [updateAcc, lookupD, hk]
    · simp [updateAcc, lookupD, hk, ih]

theorem lookupD_update_ne (m : List (String × Acc)) (g : String) (f : Acc → Acc)
    (g' : String) (h : g' ≠ g) : lookupD (updateAcc m g f) g' = lookupD m g' := by
  induction m with
  | nil =>
    simp only [updateAcc, lookupD]
    rw [if_neg (fun hh => h hh.symm)]
  | cons p rest ih =>
    obtain ⟨k, a⟩ := p
    by_cases hk : k = g
    · subst hk
      simp only [updateAcc, if_pos rfl, lookupD]
      rw [if_neg (fun hh => h hh.symm), if_neg (fun hh => h hh.symm)]
    · simp only [updateAcc, if_neg hk, lookupD]
      by_cases hkg : k = g'
      · rw [if_pos hkg, if_pos hkg]
      · rw [if_neg hkg, if_neg hkg, ih]

theorem keys_update_mem (m : List (String × Acc)) (g : String) (f : Acc → Acc) (k : String) :
    k ∈ keysOf (updateAcc m g f) ↔ k ∈ keysOf m ∨ k = g := by
  induction m with
  | nil => simp [updateAcc, keysOf]
  | cons p rest ih =>
    obtain ⟨k0, a⟩ := p
    simp only [keysOf, List.map_cons, List.mem_cons] at ih ⊢
    by_cases hk : k0 = g
    · subst hk
      rw [show updateAcc ((k0, a) :: rest) k0 f = (k0, f a) :: rest from by simp [updateAcc]]
      simp only [List.map_cons, List.mem_cons]
      tauto
    · simp only [updateAcc, if_neg hk, List.map_cons, List.mem_cons, ih]
      tauto

theorem keys_update_nodup (m : List (String × Acc)) (g : String) (f : Acc → Acc)
    (h : (keysOf m).Nodup) : (keysOf (updateAcc m g f)).Nodup := by
  induction m with
  | nil => simp [updateAcc, keysOf]
  | cons p rest ih =>
    obtain ⟨k0, a⟩ := p
    simp only [keysOf, List.map_cons, List.nodup_cons] at h
    by_cases hk : k0 = g
    · subst hk
      simpa [updateAcc, keysOf, List.nodup_cons] using h
    · simp only [updateAcc, if_neg hk, keysOf, List.map_cons, List.nodup_cons]
      refine ⟨?_, ih h.2⟩
      intro hmem
      rcases (keys_update_mem rest g f k0).mp hmem with h2 | h2
      · exact h.1 h2
      · exact hk h2

theorem mem_of_mem_keys (m : List (String × Acc)) (g : String) (hg : g ∈ keysOf m) :
    (g, lookupD m g) ∈ m := by
  induction m with
  | nil => simp [keysOf] at hg
  | cons p rest ih =>
    obtain ⟨k, a⟩ := p
    by_cases hk : k = g
    · subst hk
      simp [lookupD]
    · simp only [keysOf, List.map_cons, List.mem_cons] at hg
      rcases hg with rfl | hg2
      · exact absurd rfl hk
      · simp only [lookupD, if_neg hk]
        exact List.mem_cons_of_mem _ (ih hg2)

theorem eq_lookupD_of_mem (m : List (String × Acc)) (g : String) (a : Acc)
    (hnd : (keysOf m).Nodup) (hm : (g, a) ∈ m) : a = lookupD m g := by
  induction m with
  | nil => simp at hm
  | cons p rest ih =>
    obtain ⟨k, b⟩ := p
    simp only [keysOf, List.map_cons, List.nodup_cons] at hnd
    rcases List.mem_cons.mp hm with heq | hm2
    · injection heq with h1 h2
      subst h1
      subst h2
      simp [lookupD]
    · have hk : k ≠ g := by
        intro hkg
        subst hkg
        exact hnd.1 (List.mem_map.mpr ⟨(k, a), hm2, rfl⟩)
      simp only [lookupD, if_neg hk]
      exact ih hnd.2 hm2

theorem addK_zero (df : DataFrame) (r : Row) (a : Acc) : addK df r 0 a = a := by
  cases a
  simp [addK]

theorem addK_addK (df : DataFrame) (r : Row) (j k : ℕ) (a : Acc) :
    addK df r k (addK df r j a) = addK df r (j + k) a := by
  simp only [addK, Acc.mk.injEq]
  refine ⟨by push_cast; ring, by push_cast; ring, by push_cast; ring, by push_cast; ring,
    by omega, ?_⟩
  rw [List.append_assoc, ← List.replicate_add]

theorem bump_eq_addK_one (df : DataFrame) (r : Row) (a : Acc) :
    bump df r a = addK df r 1 a := by
  simp [bump, addK]

theorem lookupD_foldGs (df : DataFrame) (r : Row) :
    ∀ (gs : List String) (m : List (String × Acc)) (g : String),
      lookupD (gs.foldl (fun m2 g2 => updateAcc m2 g2 (bump df r)) m) g
        = addK df r (gs.count g) (lookupD m g) := by
  intro gs
  induction gs with
  | nil =>
    intro m g
    simp [addK_zero]
  | cons g2 gs ih =>
    intro m g
    simp only [List.foldl_cons]
    rw [ih]
    by_cases hg : g2 = g
    · subst hg
      rw [lookupD_update_self, bump_eq_addK_one, addK_addK]
      simp [List.count_cons, Nat.add_comm]
    · rw [lookupD_update_ne _ _ _ _ (fun hh => hg hh.symm)]
      simp [List.count_cons, hg]

theorem keys_foldGs (df : DataFrame) (r : Row) :
    ∀ (gs : List String) (m : List (String × Acc)) (k : String),
      (k ∈ keysOf (gs.foldl (fun m2 g2 => updateAcc m2 g2 (bump df r)) m)
        ↔ k ∈ keysOf m ∨ k ∈ gs) := by
  intro gs
  induction gs with
  | nil =>
    intro m k
    simp
  | cons g2 gs ih =>
    intro m k
    simp only [List.foldl_cons, List.mem_cons]
    rw [ih, keys_update_mem]
    tauto

theorem nodup_foldGs (df : DataFrame) (r : Row) :
    ∀ (gs : List String) (m : List (String × Acc)),
      (keysOf m).Nodup →
      (keysOf (gs.foldl (fun m2 g2 => updateAcc m2 g2 (bump df r)) m)).Nodup := by
  intro gs
  induction gs with
  | nil => intro m h; exact h
  | cons g2 gs ih =>
    intro m h
    exact ih _ (keys_update_nodup _ _ _ h)

theorem foldl_addK_closed (df : DataFrame) (n : ℕ) (sw : List String) (g : String) :
    ∀ (rows : List Row) (a : Acc),
      rows.foldl (fun a2 r => addK df r (occCount n sw g r) a2) a
        = { clicks := a.clicks + (rows.map (fun r => (occCount n sw g r : ℚ) * r.clicks)).sum
            cost := a.cost + (rows.map (fun r => (occCount n sw g r : ℚ) * r.cost)).sum
            conversions :=
              a.conversions + (rows.map (fun r => (occCount n sw g r : ℚ) * r.conversions)).sum
            impressions :=
              a.impressions
                + (rows.map (fun r => (occCount n sw g r : ℚ) * rowImpressions df r)).sum
            query_count := a.query_count + (rows.map (occCount n sw g)).sum
            queries :=
              a.queries ++ rows.flatMap (fun r => List.replicate (occCount n sw g r) r.query) } := by
  intro rows
  induction rows with
  | nil =>
    intro a
    cases a
    simp
  | cons r rows ih =>
    intro a
    rw [List.foldl_cons, ih]
    simp only [addK, List.map_cons, List.sum_cons, List.flatMap_cons, Acc.mk.injEq]
    refine ⟨by ring, by ring, by ring, by ring, by omega, ?_⟩
    rw [List.append_assoc]

theorem lookupD_buildMap (df : DataFrame) (n : ℕ) (sw : List String) (g : String) :
    lookupD (buildMap df n sw) g = idealAcc df n sw g := by
  have hfold : ∀ (rows : List Row) (m : List (String × Acc)),
      lookupD
        (rows.foldl
          (fun m2 r =>
            (extract_ngrams r.query n sw).foldl (fun m3 g2 => updateAcc m3 g2 (bump df r)) m2)
          m) g
        = rows.foldl (fun a r => addK df r (occCount n sw g r) a) (lookupD m g) := by
    intro rows
    induction rows with
    | nil => intro m; rfl
    | cons r rows ih =>
      intro m
      simp only [List.foldl_cons]
      rw [ih, lookupD_foldGs]
      rfl
  unfold buildMap
  rw [hfold, foldl_addK_closed]
  simp [lookupD, Acc.init, idealAcc]

theorem keys_buildMap (df : DataFrame) (n : ℕ) (sw : List String) (k : String) :
    k ∈ keysOf (buildMap df n sw) ↔ ∃ r ∈ df.rows, k ∈ extract_ngrams r.query n sw := by
  have hfold : ∀ (rows : List Row) (m : List (String × Acc)),
      k ∈ keysOf
          (rows.foldl
            (fun m2 r =>
              (extract_ngrams r.query n sw).foldl (fun m3 g2 => updateAcc m3 g2 (bump df r)) m2)
            m)
        ↔ k ∈ keysOf m ∨ ∃ r ∈ rows, k ∈ extract_ngrams r.query n sw := by
    intro rows
    induction rows with
    | nil => intro m; simp
    | cons r rows ih =>
      intro m
      simp only [List.foldl_cons, List.mem_cons]
      rw [ih, keys_foldGs]
      constructor
      · rintro ((hm | hr) | ⟨r2, hr2, hk2⟩)
        · exact Or.inl hm
        · exact Or.inr ⟨r, Or.inl rfl, hr⟩
        · exact Or.inr ⟨r2, Or.inr hr2, hk2⟩
      · rintro (hm | ⟨r2, (rfl | hr2), hk2⟩)
        · exact Or.inl (Or.inl hm)
        · exact Or.inl (Or.inr hk2)
        · exact Or.inr ⟨r2, hr2, hk2⟩
  unfold buildMap
  rw [hfold]
  simp [keysOf]

theorem nodup_keys_buildMap (df : DataFrame) (n : ℕ) (sw : List String) :
    (keysOf (buildMap df n sw)).Nodup := by
  have hfold : ∀ (rows : List Row) (m : List (String × Acc)),
      (keysOf m).Nodup →
      (keysOf
        (rows.foldl
          (fun m2 r =>
            (extract_ngrams r.query n sw).foldl (fun m3 g2 => updateAcc m3 g2 (bump df r)) m2)
          m)).Nodup := by
    intro rows
    induction rows with
    | nil => intro m h; exact h
    | cons r rows ih =>
      intro m h
      exact ih _ (nodup_foldGs df r _ _ h)
  exact hfold df.rows [] (by simp [keysOf])

theorem mem_aggOut (df : DataFrame) (n minOcc : ℕ) (sw : List String) (a : AggRow) :
    a ∈ aggOut df n minOcc sw ↔
      ∃ g, (∃ r ∈ df.rows, g ∈ extract_ngrams r.query n sw) ∧
        minOcc ≤ (idealAcc df n sw g).query_count ∧ a = mkAggRow g (idealAcc df n sw g) := by
  unfold aggOut
  simp only [List.mem_map, List.mem_filter, decide_eq_true_eq]
  constructor
  · rintro ⟨⟨g, acc⟩, ⟨hmem, hmin⟩, rfl⟩
    have hkey : g ∈ keysOf (buildMap df n sw) :=
      List.mem_map.mpr ⟨(g, acc), hmem, rfl⟩
    have hacc : acc = lookupD (buildMap df n sw) g :=
      eq_lookupD_of_mem _ _ _ (nodup_keys_buildMap df n sw) hmem
    rw [lookupD_buildMap] at hacc
    subst hacc
    exact ⟨g, (keys_buildMap df n sw g).mp hkey, hmin, rfl⟩
  · rintro ⟨g, hext, hmin, rfl⟩
    have hkey : g ∈ keysOf (buildMap df n sw) := (keys_buildMap df n sw g).mpr hext
    refine ⟨(g, lookupD (buildMap df n sw) g), ⟨mem_of_mem_keys _ _ hkey, ?_⟩, ?_⟩
    · rw [lookupD_buildMap]
      exact hmin
    · rw [lookupD_buildMap]

theorem analyze_eq_ok_of_flags (df : DataFrame) (n minOcc : ℕ) (sw : List String)
    (hq : df.hasQuery = true) (hc : df.hasClicks = true) (hco : df.hasCost = true)
    (hcv : df.hasConversions = true) :
    analyze_ngrams df n minOcc sw = Except.ok (aggOut df n minOcc sw) := by
  have hmiss : (requiredCols.filter (fun c => !hasColumn df c)).isEmpty = true := by
    simp [requiredCols, hasColumn, hq, hc, hco, hcv]
  unfold analyze_ngrams
  rw [if_pos hmiss]
  rfl

theorem of_mem_resultRows (df : DataFrame) (n minOcc : ℕ) (sw : List String) (a : AggRow)
    (ha : a ∈ resultRows (analyze_ngrams df n minOcc sw)) :
    ∃ g, (∃ r ∈ df.rows, g ∈ extract_ngrams r.query n sw) ∧
      minOcc ≤ (idealAcc df n sw g).query_count ∧ a = mkAggRow g (idealAcc df n sw g) := by
  unfold analyze_ngrams at ha
  by_cases hmiss : (requiredCols.filter (fun c => !hasColumn df c)).isEmpty
  · rw [if_pos hmiss] at ha
    exact (mem_aggOut df n minOcc sw a).mp ha
  · rw [if_neg hmiss] at ha
    simp [resultRows] at ha

/-- C2: every retained n-gram's `query_count` is the number of times it was
extracted across all rows counted with multiplicity, and each `total_*` field
is the occurrence-weighted sum of the corresponding per-row metric (a row's
clicks standing in for impressions when the impressions column is absent). -/
theorem analyze_ngrams_sum_invariant (df : DataFrame) (n minOcc : ℕ) (sw : List String) :
    ∀ a ∈ resultRows (analyze_ngrams df n minOcc sw),
      a.query_count = (df.rows.map (occCount n sw a.ngram)).sum ∧
      a.total_clicks = (df.rows.map (fun r => (occCount n sw a.ngram r : ℚ) * r.clicks)).sum ∧
      a.total_cost = (df.rows.map (fun r => (occCount n sw a.ngram r : ℚ) * r.cost)).sum ∧
      a.total_conversions
        = (df.rows.map (fun r => (occCount n sw a.ngram r : ℚ) * r.conversions)).sum ∧
      a.total_impressions
        = (df.rows.map (fun r => (occCount n sw a.ngram r : ℚ) * rowImpressions df r)).sum := by
  intro a ha
  obtain ⟨g, _, _, rfl⟩ := of_mem_resultRows df n minOcc sw a ha
  exact ⟨rfl, rfl, rfl, rfl, rfl⟩

theorem analyze_ngrams_sum_invariant_witness :
    (mkAggRow "remortgage" cAccR).query_count
        = (cDf.rows.map (occCount 1 [] (mkAggRow "remortgage" cAccR).ngram)).sum ∧
      (mkAggRow "remortgage" cAccR).total_clicks
        = (cDf.rows.map
            (fun r => (occCount 1 [] (mkAggRow "remortgage" cAccR).ngram r : ℚ) * r.clicks)).sum ∧
      (mkAggRow "remortgage" cAccR).total_cost
        = (cDf.rows.map
            (fun r => (occCount 1 [] (mkAggRow "remortgage" cAccR).ngram r : ℚ) * r.cost)).sum ∧
      (mkAggRow "remortgage" cAccR).total_conversions
        = (cDf.rows.map
            (fun r =>
              (occCount 1 [] (mkAggRow "remortgage" cAccR).ngram r : ℚ) * r.conversions)).sum ∧
      (mkAggRow "remortgage" cAccR).total_impressions
        = (cDf.rows.map
            (fun r =>
              (occCount 1 [] (mkAggRow "remortgage" cAccR).ngram r : ℚ)
                * rowImpressions cDf r)).sum :=
  analyze_ngrams_sum_invariant cDf 1 2 [] (mkAggRow "remortgage" cAccR) (by decide)

/-- C10: every retained row's `queries` list has length `query_count` and is
the concatenation, in input-row order, of one copy of each source row's query
text per occurrence of the row's n-gram in that source row's extraction. -/
theorem analyze_ngrams_queries_invariant (df : DataFrame) (n minOcc : ℕ) (sw : List String) :
    ∀ a ∈ resultRows (analyze_ngrams df n minOcc sw),
      a.queries.length = a.query_count ∧
      a.queries
        = df.rows.flatMap (fun r => List.replicate (occCount n sw a.ngram r) r.query) := by
  intro a ha
  obtain ⟨g, _, _, rfl⟩ := of_mem_resultRows df n minOcc sw a ha
  refine ⟨?_, rfl⟩
  show (idealAcc df n sw g).queries.length = (idealAcc df n sw g).query_count
  unfold idealAcc
  induction df.rows with
  | nil => rfl
  | cons r rows ih =>
    simp only [List.flatMap_cons, List.length_append, List.length_replicate, List.map_cons,
      List.sum_cons, ih]

theorem analyze_ngrams_queries_invariant_witness :
    (mkAggRow "remortgage" cAccR).queries.length = (mkAggRow "remortgage" cAccR).query_count ∧
      (mkAggRow "remortgage" cAccR).queries
        = cDf.rows.flatMap
            (fun r =>
              List.replicate (occCount 1 [] (mkAggRow "remortgage" cAccR).ngram r) r.query) :=
  analyze_ngrams_queries_invariant cDf 1 2 [] (mkAggRow "remortgage" cAccR) (by decide)

/-- C3: `analyze_ngrams` raises if and only if one of the four required
columns is absent; the error carries exactly the missing column names (in the
order of `required_cols`); and the error depends only on the schema, not on
the rows — no row is processed before it is raised. -/
theorem analyze_ngrams_schema_error (df : DataFrame) (n minOcc : ℕ) (sw : List String) :
    ((∃ e, analyze_ngrams df n minOcc sw = Except.error e)
        ↔ ¬(df.hasQuery = true ∧ df.hasClicks = true
              ∧ df.hasCost = true ∧ df.hasConversions = true)) ∧
    (∀ e, analyze_ngrams df n minOcc sw = Except.error e →
      e = requiredCols.filter (fun c => !hasColumn df c) ∧
        ∀ rows2, analyze_ngrams { df with rows := rows2 } n minOcc sw = Except.error e) := by
  obtain ⟨hq, hc, hco, hcv, hi, rows⟩ := df
  have hmain : ∀ rows2 : List Row,
      analyze_ngrams ⟨hq, hc, hco, hcv, hi, rows2⟩ n minOcc sw
        = (if (requiredCols.filter
              (fun c => !hasColumn ⟨hq, hc, hco, hcv, hi, rows2⟩ c)).isEmpty
           then Except.ok (aggOut ⟨hq, hc, hco, hcv, hi, rows2⟩ n minOcc sw)
           else Except.error
            (requiredCols.filter (fun c => !hasColumn ⟨hq, hc, hco, hcv, hi, rows2⟩ c))) :=
    fun _ => rfl
  have hflagfilter : ∀ rows2 : List Row,
      requiredCols.filter (fun c => !hasColumn ⟨hq, hc, hco, hcv, hi, rows2⟩ c)
        = requiredCols.filter (fun c => !hasColumn ⟨hq, hc, hco, hcv, hi, rows⟩ c) := by
    intro rows2
    cases hq <;> cases hc <;> cases hco <;> cases hcv <;>
      simp [requiredCols, hasColumn]
  constructor
  · rw [hmain rows]
    cases hq <;> cases hc <;> cases hco <;> cases hcv <;>
      simp [requiredCols, hasColumn]
  · intro e he
    rw [hmain rows] at he
    by_cases hmiss : (requiredCols.filter
        (fun c => !hasColumn ⟨hq, hc, hco, hcv, hi, rows⟩ c)).isEmpty
    · rw [if_pos hmiss] at he
      exact absurd he (by simp)
    · rw [if_neg hmiss] at he
      injection he with he2
      refine ⟨he2.symm, fun rows2 => ?_⟩
      show analyze_ngrams ⟨hq, hc, hco, hcv, hi, rows2⟩ n minOcc sw = Except.error e
      rw [hmain rows2, hflagfilter rows2, if_neg hmiss, he2]

theorem analyze_ngrams_schema_error_witness :
    ∃ e, analyze_ngrams ⟨true, true, false, true, true, []⟩ 1 2 [] = Except.error e :=
  (analyze_ngrams_schema_error ⟨true, true, false, true, true, []⟩ 1 2 []).1.mpr (by decide)

theorem filter_map_pair_eq {α : Type} (r : α) (g : String) :
    ∀ l : List String,
      ((l.map (fun g2 => (g2, r))).filter (fun p => decide (p.1 = g)))
        = List.replicate (l.count g) (g, r) := by
  intro l
  induction l with
  | nil => rfl
  | cons x l ihl =>
    by_cases hx : x = g
    · subst hx
      rw [List.count_cons_self, List.replicate_succ, List.map_cons, ← ihl]
      simp [List.filter_cons]
    · rw [List.count_cons_of_ne (fun hh => hx hh.symm), List.map_cons, ← ihl]
      simp [List.filter_cons, hx]

theorem filter_flatMap_replicate {α : Type} (rows : List α) (f : α → List String) (g : String) :
    ((rows.flatMap (fun r => (f r).map (fun g2 => (g2, r)))).filter
        (fun p => decide (p.1 = g)))
      = rows.flatMap (fun r => List.replicate ((f r).count g) (g, r)) := by
  induction rows with
  | nil => rfl
  | cons r rows ih =>
    simp only [List.flatMap_cons, List.filter_append, ih]
    congr 1
    exact filter_map_pair_eq r g (f r)

theorem groupRows_exploded (df : DataFrame) (n : ℕ) (sw : List String) (g : String) :
    groupRows (exploded df n sw) g
      = df.rows.flatMap (fun r => List.replicate (occCount n sw g r) r) := by
  unfold groupRows exploded
  rw [filter_flatMap_replicate df.rows (fun r => extract_ngrams r.query n sw) g]
  induction df.rows with
  | nil => rfl
  | cons r rows ih =>
    simp only [List.flatMap_cons, List.map_append, List.map_replicate, ih, occCount]

theorem sum_map_flatMap_replicate (rows : List Row) (k : Row → ℕ) (F : Row → ℚ) :
    (((rows.flatMap (fun r => List.replicate (k r) r)).map F)).sum
      = (rows.map (fun r => (k r : ℚ) * F r)).sum := by
  induction rows with
  | nil => rfl
  | cons r rows ih =>
    simp only [List.flatMap_cons, List.map_append, List.sum_append, ih, List.map_replicate,
      List.sum_replicate, List.map_cons, List.sum_cons, nsmul_eq_mul]

theorem length_flatMap_replicate (rows : List Row) (k : Row → ℕ) :
    (rows.flatMap (fun r => List.replicate (k r) r)).length = (rows.map k).sum := by
  induction rows with
  | nil => rfl
  | cons r rows ih =>
    simp only [List.flatMap_cons, List.length_append, List.length_replicate, ih,
      List.map_cons, List.sum_cons]

theorem map_flatMap_replicate (rows : List Row) (k : Row → ℕ) (F : Row → String) :
    (rows.flatMap (fun r => List.replicate (k r) r)).map F
      = rows.flatMap (fun r => List.replicate (k r) (F r)) := by
  induction rows with
  | nil => rfl
  | cons r rows ih =>
    simp only [List.flatMap_cons, List.map_append, List.map_replicate, ih]

theorem vecAcc_eq_idealAcc (df : DataFrame) (n : ℕ) (sw : List String) (g : String) :
    vecAcc df (exploded df n sw) g = idealAcc df n sw g := by
  unfold vecAcc idealAcc
  rw [groupRows_exploded]
  simp only [Acc.mk.injEq]
  exact ⟨sum_map_flatMap_replicate _ _ _, sum_map_flatMap_replicate _ _ _,
    sum_map_flatMap_replicate _ _ _, sum_map_flatMap_replicate _ _ _,
    length_flatMap_replicate _ _, map_flatMap_replicate _ _ _⟩

theorem mem_vectorized (df : DataFrame) (n minOcc : ℕ) (sw : List String) (a : AggRow) :
    a ∈ analyze_ngrams_vectorized df n minOcc sw ↔
      ∃ g, (∃ r ∈ df.rows, g ∈ extract_ngrams r.query n sw) ∧
        minOcc ≤ (idealAcc df n sw g).query_count ∧ a = mkAggRow g (idealAcc df n sw g) := by
  constructor
  · intro ha
    unfold analyze_ngrams_vectorized at ha
    obtain ⟨⟨g, acc⟩, hmem, rfl⟩ := List.mem_map.mp ha
    obtain ⟨hmem2, hmin⟩ := List.mem_filter.mp hmem
    obtain ⟨g2, hg2, heq⟩ := List.mem_map.mp hmem2
    injection heq with heq1 heq2
    subst heq1
    subst heq2
    rw [decide_eq_true_eq] at hmin
    rw [vecAcc_eq_idealAcc] at hmin ⊢
    have hkey : g2 ∈ (exploded df n sw).map Prod.fst := by
      rw [List.mem_insertionSort] at hg2
      exact List.mem_dedup.mp hg2
    obtain ⟨⟨g3, r⟩, hpr, hfst⟩ := List.mem_map.mp hkey
    obtain ⟨r2, hr2, hpr2⟩ := List.mem_flatMap.mp hpr
    obtain ⟨g4, hg4, heq4⟩ := List.mem_map.mp hpr2
    have h5 : g4 = g3 := congrArg Prod.fst heq4
    have h6 : r2 = r := congrArg Prod.snd heq4
    have hfst2 : g3 = g2 := hfst
    refine ⟨g2, ⟨r2, hr2, ?_⟩, hmin, rfl⟩
    rw [← hfst2, ← h5]
    exact hg4
  · rintro ⟨g, ⟨r, hr, hg⟩, hmin, rfl⟩
    unfold analyze_ngrams_vectorized
    refine List.mem_map.mpr
      ⟨(g, vecAcc df (exploded df n sw) g), ?_, by rw [vecAcc_eq_idealAcc]⟩
    refine List.mem_filter.mpr ⟨?_, ?_⟩
    · refine List.mem_map.mpr ⟨g, ?_, rfl⟩
      rw [List.mem_insertionSort]
      refine List.mem_dedup.mpr (List.mem_map.mpr ⟨(g, r), ?_, rfl⟩)
      exact List.mem_flatMap.mpr ⟨r, hr, List.mem_map.mpr ⟨g, hg, rfl⟩⟩
    · rw [decide_eq_true_eq, vecAcc_eq_idealAcc]
      exact hmin

/-- C1: on any DataFrame carrying the four required columns, the row-wise
aggregation succeeds and retains exactly the same records as the
grouped/vectorized aggregation — for each retained n-gram the `query_count`,
`total_*` sums, `ctr`/`cvr`/`cpa` values (and even the `queries` lists)
coincide; only the output ordering differs (first-seen order versus sorted
group keys). -/
theorem analyze_ngrams_vectorized_equiv (df : DataFrame) (n minOcc : ℕ) (sw : List String)
    (hq : df.hasQuery = true) (hc : df.hasClicks = true) (hco : df.hasCost = true)
    (hcv : df.hasConversions = true) :
    (∃ l, analyze_ngrams df n minOcc sw = Except.ok l) ∧
    ∀ a, a ∈ resultRows (analyze_ngrams df n minOcc sw)
      ↔ a ∈ analyze_ngrams_vectorized df n minOcc sw := by
  have hok := analyze_eq_ok_of_flags df n minOcc sw hq hc hco hcv
  refine ⟨⟨_, hok⟩, fun a => ?_⟩
  rw [hok]
  show a ∈ aggOut df n minOcc sw ↔ _
  rw [mem_aggOut, mem_vectorized]

theorem analyze_ngrams_vectorized_equiv_witness :
    mkAggRow "remortgage" cAccR ∈ analyze_ngrams_vectorized cDf 1 2 [] :=
  ((analyze_ngrams_vectorized_equiv cDf 1 2 [] rfl rfl rfl rfl).2 _).mp (by decide)

/-- C4: for every retained row of either aggregator, the derived metrics are
total: each equals its defining ratio when its denominator is positive and is
`0` when the denominator is zero — the value is always defined (in this
model over `ℚ` no NaN exists and no exception can be raised). -/
theorem derived_metrics_total (df : DataFrame) (n minOcc : ℕ) (sw : List String) (a : AggRow)
    (ha : a ∈ resultRows (analyze_ngrams df n minOcc sw)
        ∨ a ∈ analyze_ngrams_vectorized df n minOcc sw) :
    (0 < a.total_impressions → a.ctr = a.total_clicks / a.total_impressions * 100) ∧
    (a.total_impressions = 0 → a.ctr = 0) ∧
    (0 < a.total_clicks → a.cvr = a.total_conversions / a.total_clicks * 100) ∧
    (a.total_clicks = 0 → a.cvr = 0) ∧
    (0 < a.total_conversions → a.cpa = a.total_cost / a.total_conversions) ∧
    (a.total_conversions = 0 → a.cpa = 0) := by
  have hmk : ∃ g acc, a = mkAggRow g acc := by
    rcases ha with ha | ha
    · obtain ⟨g, _, _, rfl⟩ := of_mem_resultRows df n minOcc sw a ha
      exact ⟨_, _, rfl⟩
    · obtain ⟨g, _, _, rfl⟩ := (mem_vectorized df n minOcc sw a).mp ha
      exact ⟨_, _, rfl⟩
  obtain ⟨g, acc, rfl⟩ := hmk
  refine ⟨fun h => ?_, fun h => ?_, fun h => ?_, fun h => ?_, fun h => ?_, fun h => ?_⟩ <;>
    simp_all [mkAggRow]

theorem derived_metrics_total_witness :
    (mkAggRow "remortgage" cAccR).ctr
      = (mkAggRow "remortgage" cAccR).total_clicks
          / (mkAggRow "remortgage" cAccR).total_impressions * 100 :=
  (derived_metrics_total cDf 1 2 [] (mkAggRow "remortgage" cAccR) (Or.inl (by decide))).1
    (by decide)

theorem le_foldl_self (xs : List ℚ) : ∀ x : ℚ, x ≤ xs.foldl max x := by
  induction xs with
  | nil => intro x; exact le_refl x
  | cons y xs ih =>
    intro x
    exact le_trans (le_max_left x y) (ih (max x y))

theorem foldl_max_mem (xs : List ℚ) : ∀ x : ℚ, xs.foldl max x ∈ x :: xs := by
  induction xs with
  | nil => intro x; exact List.mem_singleton.mpr rfl
  | cons y xs ih =>
    intro x
    have := ih (max x y)
    rcases List.mem_cons.mp this with heq | hmem
    · rcases max_choice x y with hx | hy
      · rw [List.foldl_cons, heq, hx]
        exact List.mem_cons_self _ _
      · rw [List.foldl_cons, heq, hy]
        exact List.mem_cons_of_mem _ (List.mem_cons_self _ _)
    · exact List.mem_cons_of_mem _ (List.mem_cons_of_mem _ hmem)

theorem le_foldl_max (xs : List ℚ) : ∀ (x y : ℚ), y ∈ x :: xs → y ≤ xs.foldl max x := by
  induction xs with
  | nil =>
    intro x y hy
    rw [List.mem_singleton.mp hy]
    exact le_refl x
  | cons z xs ih =>
    intro x y hy
    rcases List.mem_cons.mp hy with rfl | hy2
    · exact le_trans (le_max_left y z) (le_foldl_self xs (max y z))
    · rcases List.mem_cons.mp hy2 with rfl | hy3
      · exact le_trans (le_max_right x y) (le_foldl_self xs (max x y))
      · exact ih (max x z) y (List.mem_cons_of_mem _ hy3)

theorem listMax_mem (l : List ℚ) (h : l ≠ []) : listMax l ∈ l := by
  cases l with
  | nil => exact absurd rfl h
  | cons x xs => exact foldl_max_mem xs x

theorem le_listMax (l : List ℚ) (y : ℚ) (hy : y ∈ l) : y ≤ listMax l := by
  cases l with
  | nil => simp at hy
  | cons x xs => exact le_foldl_max xs x y hy

theorem interp_mono {s : List ℚ} (hsorted : s.Sorted (fun a b : ℚ => a ≤ b)) {N : ℕ}
    (hslen : s.length = N) (hN1 : 1 ≤ N) {a b : ℚ}
    (ha : 0 ≤ a) (hab : a ≤ b) (hb : b ≤ (N : ℚ) - 1) :
    interp s N a ≤ interp s N b := by
  have hv : ∀ i j : ℕ, i ≤ j → j < N → s.getD i 0 ≤ s.getD j 0 := by
    intro i j hij hj
    rcases Nat.lt_or_ge i j with hlt | hge
    · have hi2 : i < s.length := by omega
      have hj2 : j < s.length := by omega
      rw [List.getD_eq_getElem s 0 hi2, List.getD_eq_getElem s 0 hj2]
      have := List.pairwise_iff_get.mp hsorted ⟨i, hi2⟩ ⟨j, hj2⟩ hlt
      simpa using this
    · have hij2 : i = j := le_antisymm hij hge
      rw [hij2]
  have hfa0 : 0 ≤ Int.floor a := Int.floor_nonneg.mpr ha
  have hfb0 : 0 ≤ Int.floor b := Int.floor_nonneg.mpr (le_trans ha hab)
  have hiaZ : (((Int.floor a).toNat : ℤ)) = Int.floor a := Int.toNat_of_nonneg hfa0
  have hibZ : (((Int.floor b).toNat : ℤ)) = Int.floor b := Int.toNat_of_nonneg hfb0
  set ia := (Int.floor a).toNat with hia_def
  set ib := (Int.floor b).toNat with hib_def
  have hfloorb_le : Int.floor b ≤ (N : ℤ) - 1 := by
    have hm : Int.floor b ≤ Int.floor ((N : ℚ) - 1) := Int.floor_mono hb
    have he : Int.floor ((N : ℚ) - 1) = (N : ℤ) - 1 := by
      rw [show ((N : ℚ) - 1) = (((N : ℤ) - 1 : ℤ) : ℚ) by push_cast; ring]
      exact Int.floor_intCast _
    omega
  have hfloorab : Int.floor a ≤ Int.floor b := Int.floor_mono hab
  have hib_ub : ib ≤ N - 1 := by omega
  have hiab : ia ≤ ib := by omega
  set ja := min (ia + 1) (N - 1) with hja_def
  set jb := min (ib + 1) (N - 1) with hjb_def
  have hja_lt : ja < N := by omega
  have hjb_lt : jb < N := by omega
  have hia_le_ja : ia ≤ ja := by omega
  have hib_le_jb : ib ≤ jb := by omega
  have hda : 0 ≤ s.getD ja 0 - s.getD ia 0 := sub_nonneg.mpr (hv ia ja hia_le_ja hja_lt)
  have hdb : 0 ≤ s.getD jb 0 - s.getD ib 0 := sub_nonneg.mpr (hv ib jb hib_le_jb hjb_lt)
  have hfa_lb : 0 ≤ a - (Int.floor a : ℚ) := sub_nonneg.mpr (Int.floor_le a)
  have hfa_ub : a - (Int.floor a : ℚ) ≤ 1 := by
    have := Int.lt_floor_add_one a
    linarith
  have hfb_lb : 0 ≤ b - (Int.floor b : ℚ) := sub_nonneg.mpr (Int.floor_le b)
  rcases Nat.eq_or_lt_of_le hiab with heq | hlt
  · have hfeq : Int.floor a = Int.floor b := by omega
    have hjj : ja = jb := by rw [hja_def, hjb_def, heq]
    unfold interp
    rw [← hia_def, ← hib_def, ← hja_def, ← hjb_def, heq, hfeq, hjj]
    have hmul := mul_le_mul_of_nonneg_right
      (sub_le_sub_right hab ((Int.floor b : ℚ))) hdb
    linarith
  · have hja_eq : ja = ia + 1 := by omega
    have h1 : interp s N a ≤ s.getD ja 0 := by
      unfold interp
      rw [← hia_def, ← hja_def]
      have hmul := mul_le_mul_of_nonneg_right hfa_ub hda
      linarith
    have h2 : s.getD ja 0 ≤ s.getD ib 0 := hv ja ib (by omega) (by omega)
    have h3 : s.getD ib 0 ≤ interp s N b := by
      unfold interp
      rw [← hib_def, ← hjb_def]
      have hmul := mul_nonneg hfb_lb hdb
      linarith
    linarith

theorem quantile_mono (xs : List ℚ) {q1 q2 : ℚ} (h0 : 0 ≤ q1) (h12 : q1 ≤ q2) (h1 : q2 ≤ 1) :
    quantile xs q1 ≤ quantile xs q2 := by
  unfold quantile
  by_cases hN : xs.length = 0
  · rw [if_pos hN, if_pos hN]
  · rw [if_neg hN, if_neg hN]
    have hN1 : 1 ≤ xs.length := Nat.one_le_iff_ne_zero.mpr hN
    have hNQ : (0 : ℚ) ≤ (xs.length : ℚ) - 1 := by
      have h2 : (1 : ℚ) ≤ (xs.length : ℚ) := by exact_mod_cast hN1
      linarith
    refine interp_mono (List.sorted_insertionSort _ _) (List.length_insertionSort _ _) hN1
      (mul_nonneg h0 hNQ) (mul_le_mul_of_nonneg_right h12 hNQ) ?_
    calc q2 * ((xs.length : ℚ) - 1) ≤ 1 * ((xs.length : ℚ) - 1) :=
        mul_le_mul_of_nonneg_right h1 hNQ
      _ = (xs.length : ℚ) - 1 := one_mul _

theorem length_identify (df : List AggRow) (costP cvrP : ℚ) :
    (identify_money_wasters df costP cvrP).length = (retainedRows df costP cvrP).length := by
  unfold identify_money_wasters
  by_cases hdf : df.isEmpty
  · rw [if_pos hdf]
    have : df = [] := List.isEmpty_iff.mp hdf
    subst this
    rfl
  · rw [if_neg hdf]
    by_cases hmw : (retainedRows df costP cvrP).isEmpty
    · rw [if_pos hmw, List.isEmpty_iff.mp hmw]
      rfl
    · rw [if_neg hmw, List.length_insertionSort, List.length_map]

theorem length_filter_mono {α : Type} (l : List α) (p q : α → Bool)
    (h : ∀ x ∈ l, p x = true → q x = true) :
    (l.filter p).length ≤ (l.filter q).length := by
  induction l with
  | nil => exact le_refl 0
  | cons x l ih =>
    have ih2 := ih (fun y hy => h y (List.mem_cons_of_mem _ hy))
    by_cases hp : p x = true
    · rw [List.filter_cons, if_pos hp, List.filter_cons, if_pos (h x (List.mem_cons_self _ _) hp)]
      simpa using ih2
    · rw [List.filter_cons, if_neg hp, List.filter_cons]
      by_cases hq : q x = true
      · rw [if_pos hq]
        simp only [List.length_cons]
        omega
      · rw [if_neg hq]
        exact ih2

/-- C7: for a fixed input set, raising the cost percentile or lowering the
CVR percentile never increases the size of the waste-detector result set
(retention is `total_cost ≥ cost-threshold AND cvr ≤ cvr-threshold`, with the
linear-interpolation percentile thresholds monotone in their percentile). -/
theorem identify_money_wasters_antitone (df : List AggRow) (pc pc2 pv pv2 : ℚ)
    (h0c : 0 ≤ pc) (hcc : pc ≤ pc2) (hc100 : pc2 ≤ 100)
    (h0v : 0 ≤ pv2) (hvv : pv2 ≤ pv) (hv100 : pv ≤ 100) :
    (identify_money_wasters df pc2 pv2).length ≤ (identify_money_wasters df pc pv).length := by
  rw [length_identify, length_identify]
  have hcostT : costThreshold df pc ≤ costThreshold df pc2 := by
    refine quantile_mono _ (by positivity) ?_ ?_
    · exact div_le_div_of_nonneg_right hcc (by norm_num)
    · rw [div_le_one (by norm_num : (0:ℚ) < 100)]
      exact hc100
  have hcvrT : cvrThreshold df pv2 ≤ cvrThreshold df pv := by
    refine quantile_mono _ (by positivity) ?_ ?_
    · exact div_le_div_of_nonneg_right hvv (by norm_num)
    · rw [div_le_one (by norm_num : (0:ℚ) < 100)]
      exact hv100
  unfold retainedRows
  refine length_filter_mono df _ _ ?_
  intro r _ hp
  rw [Bool.and_eq_true, decide_eq_true_eq, decide_eq_true_eq] at hp
  rw [Bool.and_eq_true, decide_eq_true_eq, decide_eq_true_eq]
  exact ⟨le_trans hcostT hp.1, le_trans hp.2 hcvrT⟩

theorem identify_money_wasters_antitone_witness :
    (identify_money_wasters [wRow] 75 10).length
      ≤ (identify_money_wasters [wRow] 50 25).length :=
  identify_money_wasters_antitone [wRow] 50 75 25 10 (by norm_num) (by norm_num)
    (by norm_num) (by norm_num) (by norm_num) (by norm_num)

/-- C6 counterexample: on the single-row input `rBad` (total_cost 1, cvr 200)
the waste detector returns a non-empty result set whose waste score is
`(1/1) * (1 - 200/100) = -1`, outside `[0, 1]` — refuting the claim that
every returned waste score lies in `[0, 1]`. -/
theorem waste_score_range_counterexample :
    identify_money_wasters [rBad] 75 25 = [(rBad, -1)] ∧ ((-1 : ℚ) < 0) := by
  constructor
  · decide
  · decide

theorem mem_identify_money_wasters (df : List AggRow) (pc pv : ℚ)
    (hdf : df.isEmpty = false) (hmw : (retainedRows df pc pv).isEmpty = false) (p : AggRow × ℚ) :
    p ∈ identify_money_wasters df pc pv ↔
      ∃ r ∈ retainedRows df pc pv,
        p = (r, r.total_cost / wasteMaxCost df pc pv * (1 - r.cvr / 100)) := by
  unfold identify_money_wasters
  rw [if_neg (by rw [hdf]; exact Bool.false_ne_true), if_neg (by rw [hmw]; exact Bool.false_ne_true)]
  rw [List.mem_insertionSort]
  constructor
  · intro hp
    obtain ⟨r, hr, heq⟩ := List.mem_map.mp hp
    exact ⟨r, hr, heq.symm⟩
  · rintro ⟨r, hr, rfl⟩
    exact List.mem_map.mpr ⟨r, hr, rfl⟩

/-- C6 (amended): when every input row has positive `total_cost` and
`cvr ∈ [0, 100]`, every returned waste score equals
`(total_cost / max total_cost over the retained set) * (1 - cvr/100)` and
lies in `[0, 1]`, and when the result set is non-empty it contains a
maximum-cost row whose normalized-cost component `total_cost / max` equals 1. -/
theorem waste_score_range_amended (df : List AggRow) (pc pv : ℚ)
    (hpos : ∀ r ∈ df, 0 < r.total_cost ∧ 0 ≤ r.cvr ∧ r.cvr ≤ 100) :
    (∀ p ∈ identify_money_wasters df pc pv,
      p.2 = p.1.total_cost / wasteMaxCost df pc pv * (1 - p.1.cvr / 100) ∧
      0 ≤ p.2 ∧ p.2 ≤ 1) ∧
    (identify_money_wasters df pc pv ≠ [] →
      ∃ p ∈ identify_money_wasters df pc pv,
        p.1.total_cost = wasteMaxCost df pc pv ∧
        p.1.total_cost / wasteMaxCost df pc pv = 1) := by
  by_cases hdf : df.isEmpty
  · have hid : identify_money_wasters df pc pv = [] := by
      unfold identify_money_wasters
      rw [if_pos hdf]
    rw [hid]
    exact ⟨fun p hp => absurd hp (List.not_mem_nil p), fun hne => absurd rfl hne⟩
  · by_cases hmw : (retainedRows df pc pv).isEmpty
    · have hid : identify_money_wasters df pc pv = [] := by
        unfold identify_money_wasters
        rw [if_neg hdf, if_pos hmw]
      rw [hid]
      exact ⟨fun p hp => absurd hp (List.not_mem_nil p), fun hne => absurd rfl hne⟩
    · have hmwne : retainedRows df pc pv ≠ [] := fun h => hmw (by rw [h]; rfl)
      have hsub : ∀ r ∈ retainedRows df pc pv, r ∈ df := fun r hr => List.mem_of_mem_filter hr
      have hmax_mem : listMax ((retainedRows df pc pv).map AggRow.total_cost)
          ∈ (retainedRows df pc pv).map AggRow.total_cost :=
        listMax_mem _ (by simpa using hmwne)
      obtain ⟨rmax, hrmax_mem, hrmax_eq⟩ := List.mem_map.mp hmax_mem
      have hw : wasteMaxCost df pc pv = rmax.total_cost := hrmax_eq.symm
      have hmaxpos : 0 < wasteMaxCost df pc pv := by
        rw [hw]
        exact (hpos rmax (hsub rmax hrmax_mem)).1
      have hchar := mem_identify_money_wasters df pc pv
        (Bool.eq_false_iff.mpr hdf) (Bool.eq_false_iff.mpr hmw)
      constructor
      · intro p hp
        obtain ⟨r, hr, rfl⟩ := (hchar p).mp hp
        obtain ⟨hcpos, hcvr0, hcvr100⟩ := hpos r (hsub r hr)
        have hle : r.total_cost ≤ wasteMaxCost df pc pv :=
          le_listMax _ _ (List.mem_map.mpr ⟨r, hr, rfl⟩)
        have hdiv0 : 0 ≤ r.total_cost / wasteMaxCost df pc pv :=
          div_nonneg (le_of_lt hcpos) (le_of_lt hmaxpos)
        have hdiv1 : r.total_cost / wasteMaxCost df pc pv ≤ 1 :=
          (div_le_one hmaxpos).mpr hle
        have hcvrdiv0 : 0 ≤ r.cvr / 100 := div_nonneg hcvr0 (by norm_num)
        have hcvrdiv1 : r.cvr / 100 ≤ 1 := by
          rw [div_le_one (by norm_num : (0:ℚ) < 100)]
          exact hcvr100
        refine ⟨rfl, mul_nonneg hdiv0 (by linarith), ?_⟩
        exact mul_le_one₀ hdiv1 (by linarith) (by linarith)
      · intro _
        refine ⟨(rmax, rmax.total_cost / wasteMaxCost df pc pv * (1 - rmax.cvr / 100)),
          (hchar _).mpr ⟨rmax, hrmax_mem, rfl⟩, hw.symm, ?_⟩
        rw [hw]
        exact div_self (ne_of_gt (hpos rmax (hsub rmax hrmax_mem)).1)

theorem waste_score_range_amended_witness :
    (((rGood, (1:ℚ)/2) : AggRow × ℚ).2
        = ((rGood, (1:ℚ)/2) : AggRow × ℚ).1.total_cost / wasteMaxCost [rGood] 75 25
            * (1 - ((rGood, (1:ℚ)/2) : AggRow × ℚ).1.cvr / 100)) ∧
      0 ≤ (((rGood, (1:ℚ)/2) : AggRow × ℚ).2) ∧ (((rGood, (1:ℚ)/2) : AggRow × ℚ).2) ≤ 1 :=
  (waste_score_range_amended [rGood] 75 25 (by decide)).1 (rGood, (1:ℚ)/2) (by decide)

end Ngram
